import Mathlib

/-!
Shallow embedding of the CV181x eFuse driver (cv181x_efuse.c) from the
OpenLCH buildroot tree.

The driver talks to a one-time-programmable fuse array through memory
mapped registers.  The embedding models the hardware as an explicit state
(`EfuseHw`): the physical fuse rows, a per-row margin-read response mask
(an oracle allowing weakly programmed bits to read back as zero), the
shadow register window and the result of the clock-enable call.  Every
driver function is translated to a pure function that threads this state
and additionally records the register commands it issues as an event
trace, so that absence of side effects is expressible as an empty trace.

Machine integers are Nat with explicit reduction modulo 2 ^ 32 where the
C code works on uint32_t values.  Error returns are Int, matching the
negative errno convention of the source (-EFAULT = -14, -EIO = -5).
-/

def EFUSE_SIZE : Nat := 0x100

def EFUSE_BIT_AREAD : Nat := 1

def EFUSE_BIT_MREAD : Nat := 2

def EFUSE_BIT_PRG : Nat := 4

def EFUSE_BIT_PWR_DN : Nat := 8

def EFUSE_BIT_CMD : Nat := 16

def EFUSE_CMD_REFRESH : Nat := 0x30

def EFUSE_AREAD : Nat := 0

def EFUSE_MREAD : Nat := 1

/-- Linux errno value EFAULT (bad address), returned as -14 by the driver. -/
def efaultCode : Int := 14

/-- Linux errno value for a hardware input-output error, returned as -5. -/
def eioCode : Int := 5

/-- Events recorded by the embedded driver functions: clock gating, the
power-on helper, busy-wait polling, explicit 32-bit register writes and
reads (by byte offset from the eFuse base), and entry into the bit
programming helper. -/
inductive EfuseEv where
  | clkEnable : EfuseEv
  | clkDisable : EfuseEv
  | powerOn : Bool → EfuseEv
  | waitReady : EfuseEv
  | writeReg : Nat → Nat → EfuseEv
  | readReg : Nat → EfuseEv
  | progBitCall : Nat → Nat → Nat → EfuseEv
deriving DecidableEq

/-- Hardware state seen by the driver.  `rows` holds the physical fuse
rows (indexed by physical row address, each one a 32-bit word), `margin`
is the per-row mask of bits that read back under a margin read (a bit
that is programmed but weak reads as zero exactly when its mask bit is
zero), `shadow` is the shadow register window indexed by word, and
`clkRet` is the value clk_prepare_enable returns (0 on success). -/
structure EfuseHw where
  rows : Nat → Nat
  margin : Nat → Nat
  shadow : Nat → Nat
  clkRet : Int

/-- Embedding of cvi_efuse_prog_bit.  The composite physical address
packs the bit index into bits [11:7], the word index into bits [6:1] and
the row selector into bit 0, exactly as in the source:
phy_addr = ((bit_addr & 0x1F) << 7) | ((word_addr & 0x3F) << 1) | high_row.
The effect of the program command is modelled from the spec: the fuse
bit selected by the address transitions to 1 (bits are never cleared);
the hardware decodes bits [6:0] of the address as the physical row and
bits [11:7] as the bit index. -/
def cvi_efuse_prog_bit (hw : EfuseHw) (word_addr bit_addr high_row : Nat) :
    EfuseHw × List EfuseEv :=
  let phy_addr := ((bit_addr &&& 0x1F) <<< 7) ||| ((word_addr &&& 0x3F) <<< 1) ||| high_row
  let row := phy_addr &&& 0x7F
  ({ hw with rows := Function.update hw.rows row (hw.rows row ||| (1 <<< (phy_addr >>> 7))) },
   [EfuseEv.progBitCall word_addr bit_addr high_row, EfuseEv.waitReady,
    EfuseEv.writeReg 0x4 phy_addr,
    EfuseEv.writeReg 0x0 (EFUSE_BIT_PRG ||| EFUSE_BIT_CMD)])

/-- Embedding of cvi_efuse_read_from_phy.  Powers the fuse block on,
waits ready, writes the target physical address, then dispatches on the
read type: an array read returns the raw row contents, a margin read
returns the row contents masked by the margin oracle, any other type
returns the 32-bit all-ones sentinel after only the address write, as in
the source.  Reads do not change the hardware state. -/
def cvi_efuse_read_from_phy (hw : EfuseHw) (phy_word_addr ty : Nat) :
    EfuseHw × List EfuseEv × Nat :=
  let pre := [EfuseEv.powerOn true, EfuseEv.waitReady,
              EfuseEv.writeReg 0x4 phy_word_addr]
  if ty = EFUSE_AREAD then
    (hw, pre ++ [EfuseEv.writeReg 0x0 (EFUSE_BIT_AREAD ||| EFUSE_BIT_CMD),
                 EfuseEv.waitReady, EfuseEv.readReg 0xC],
     hw.rows phy_word_addr % 2 ^ 32)
  else if ty = EFUSE_MREAD then
    (hw, pre ++ [EfuseEv.writeReg 0x0 (EFUSE_BIT_MREAD ||| EFUSE_BIT_CMD),
                 EfuseEv.waitReady, EfuseEv.readReg 0xC],
     (hw.rows phy_word_addr &&& hw.margin phy_word_addr) % 2 ^ 32)
  else
    (hw, pre, 2 ^ 32 - 1)

/-- Embedding of cvi_efuse_refresh.  Writes the refresh command to the
MODE register.  The effect on the shadow window is modelled from the
spec: the shadow resyncs from the physical fuse array, each virtual word
being composed from its two physical rows; the two redundant rows
combine by bitwise or (each virtual word maps to a pair of physical rows
and a bit is set in the virtual word when either row carries it, which
is what makes the single-row verification tolerance of the write path
consistent with the superset read-back property stated by the spec). -/
def cvi_efuse_refresh (hw : EfuseHw) : EfuseHw × List EfuseEv :=
  ({ hw with shadow := fun w => hw.rows (2 * w) ||| hw.rows (2 * w + 1) },
   [EfuseEv.writeReg 0x0 EFUSE_CMD_REFRESH])

/-- The inner programming loop of cvi_efuse_write_word: for each bit
index i in the given list (the source iterates i = 0 .. 31), if bit i of
zero_bit is set, call cvi_efuse_prog_bit for that bit and the current
row selector. -/
def prog_loop (vir_word_addr j zero_bit : Nat) :
    List Nat → EfuseHw → EfuseHw × List EfuseEv
  | [], hw => (hw, [])
  | i :: is, hw =>
    if (zero_bit >>> i) &&& 1 = 1 then
      let s := cvi_efuse_prog_bit hw vir_word_addr i j
      let r := prog_loop vir_word_addr j zero_bit is s.1
      (r.1, s.2 ++ r.2)
    else prog_loop vir_word_addr j zero_bit is hw

/-- One iteration of the outer loop of cvi_efuse_write_word for row
selector j: array-read the physical row (vir_word_addr << 1) | j,
compute zero_bit = val & ~row_val, program every set bit of zero_bit,
margin-read the same row again and report error increment 1 exactly when
(val & new_value) != val. -/
def write_word_pass (hw : EfuseHw) (vir_word_addr val j : Nat) :
    EfuseHw × List EfuseEv × Nat :=
  let a := cvi_efuse_read_from_phy hw ((vir_word_addr <<< 1) ||| j) EFUSE_AREAD
  let zero_bit := val &&& (a.2.2 ^^^ (2 ^ 32 - 1))
  let p := prog_loop vir_word_addr j zero_bit (List.range 32) a.1
  let m := cvi_efuse_read_from_phy p.1 ((vir_word_addr <<< 1) ||| j) EFUSE_MREAD
  (m.1, a.2.1 ++ p.2 ++ m.2.1, if val &&& m.2.2 ≠ val then 1 else 0)

/-- The hardware state reached inside a pass of cvi_efuse_write_word
right after the programming loop, before the margin read. -/
def write_word_pass_prog (hw : EfuseHw) (vir_word_addr val j : Nat) : EfuseHw :=
  let a := cvi_efuse_read_from_phy hw ((vir_word_addr <<< 1) ||| j) EFUSE_AREAD
  (prog_loop vir_word_addr j (val &&& (a.2.2 ^^^ (2 ^ 32 - 1))) (List.range 32) a.1).1

/-- Embedding of cvi_efuse_write_word: two passes (row selector 0 then
1), an error counter summed over the passes, a final refresh, and return
-EIO when the error counter reached 2, else 0. -/
def cvi_efuse_write_word (hw : EfuseHw) (vir_word_addr val : Nat) :
    EfuseHw × List EfuseEv × Int :=
  let p0 := write_word_pass hw vir_word_addr val 0
  let p1 := write_word_pass p0.1 vir_word_addr val 1
  let rf := cvi_efuse_refresh p1.1
  (rf.1, p0.2.1 ++ p1.2.1 ++ rf.2,
   if p0.2.2 + p1.2.2 ≥ 2 then -eioCode else 0)

/-- Embedding of cvi_efuse_read_from_shadow: reject addresses at or past
EFUSE_SIZE and misaligned addresses with -EFAULT before touching the
clock or any register; then enable the clock (propagating a nonzero
clk_prepare_enable result), read the shadow word and disable the clock. -/
def cvi_efuse_read_from_shadow (hw : EfuseHw) (addr : Nat) :
    List EfuseEv × Int :=
  if addr ≥ EFUSE_SIZE then ([], -efaultCode)
  else if addr % 4 ≠ 0 then ([], -efaultCode)
  else if hw.clkRet ≠ 0 then ([EfuseEv.clkEnable], hw.clkRet)
  else ([EfuseEv.clkEnable, EfuseEv.readReg (0x100 + addr), EfuseEv.clkDisable],
        Int.ofNat (hw.shadow (addr / 4) % 2 ^ 32))

/-- Embedding of cvi_efuse_write: the body that would validate the
address and call cvi_efuse_write_word is compiled out in the source
(#if 0), leaving an unconditional return -1 with no side effects. -/
def cvi_efuse_write (hw : EfuseHw) (addr value : Nat) :
    EfuseHw × List EfuseEv × Int :=
  (hw, [], -1)

/-- Little-endian byte k of the 32-bit word v. -/
def byteOf (v k : Nat) : Nat := (v >>> (8 * k)) &&& 0xFF

/-- memset(buf, 0, n) on a byte buffer modelled as a function. -/
def memset0 (buf : Nat → Nat) (n : Nat) : Nat → Nat :=
  fun b => if b < n then 0 else buf b

/-- memcpy(buf + i, &v, 4) for a 32-bit value v, little-endian. -/
def memcpy4 (buf : Nat → Nat) (i v : Nat) : Nat → Nat :=
  fun b => if i ≤ b ∧ b < i + 4 then byteOf v (b - i) else buf b

/-- The loop of cvi_efuse_read_buf: k remaining iterations, current byte
offset i; each iteration reads shadow word addr + i, aborts with the
error on a negative result, copies the word into the buffer when it is
positive and otherwise leaves the (pre-zeroed) bytes alone. -/
def read_buf_loop (hw : EfuseHw) (addr : Nat) :
    Nat → Nat → (Nat → Nat) → (Nat → Nat) × Option Int
  | 0, _, buf => (buf, none)
  | k + 1, i, buf =>
    let r := cvi_efuse_read_from_shadow hw (addr + i)
    if r.2 < 0 then (buf, some r.2)
    else
      read_buf_loop hw addr k (i + 4)
        (if r.2 > 0 then memcpy4 buf i r.2.toNat else buf)

/-- Embedding of cvi_efuse_read_buf: a null buffer fails with -EFAULT,
the requested size is clamped to EFUSE_SIZE, the destination is zeroed
for the clamped size, then shadow words are read in 4-byte strides from
addr; the first failing read aborts with its error, otherwise the
clamped size is returned. -/
def cvi_efuse_read_buf (hw : EfuseHw) (addr : Nat) (buf_null : Bool)
    (buf : Nat → Nat) (buf_size : Nat) : (Nat → Nat) × Int :=
  if buf_null then (buf, -efaultCode)
  else
    let bs := if buf_size > EFUSE_SIZE then EFUSE_SIZE else buf_size
    let r := read_buf_loop hw addr ((bs + 3) / 4) 0 (memset0 buf bs)
    match r.2 with
    | some e => (r.1, e)
    | none => (r.1, Int.ofNat bs)

/-- A concrete all-zero hardware state used to instantiate theorems. -/
def hw0 : EfuseHw := ⟨fun _ => 0, fun _ => 0, fun _ => 0, 0⟩

/-- A concrete hardware state with blank fuses and a fully healthy
margin-read response, used to instantiate theorems. -/
def hwAll : EfuseHw := ⟨fun _ => 0, fun _ => 2 ^ 32 - 1, fun _ => 0, 0⟩

theorem mask32_testBit (x i : Nat) :
    (x % 2 ^ 32).testBit i = (decide (i < 32) && x.testBit i) :=
  Nat.testBit_mod_two_pow x 32 i

theorem testBit_one_shiftLeft (n i : Nat) :
    ((1 <<< n).testBit i) = decide (i = n) := by
  rw [Nat.one_shiftLeft]
  rcases eq_or_ne i n with h | h
  · subst h; simp [Nat.testBit_two_pow_self]
  · simp [Nat.testBit_two_pow_of_ne (Ne.symm h), h]

theorem testBit_false_of_lt {x n i : Nat} (hx : x < 2 ^ n) (hi : n ≤ i) :
    x.testBit i = false :=
  Nat.testBit_lt_two_pow (lt_of_lt_of_le hx (Nat.pow_le_pow_right (by omega) hi))

theorem lt_32_of_testBit {val t : Nat} (h : val < 2 ^ 32)
    (ht : val.testBit t = true) : t < 32 := by
  by_contra hc
  rw [testBit_false_of_lt h (by omega)] at ht
  exact Bool.false_ne_true ht

theorem land_eq_left_iff (x y : Nat) :
    x &&& y = x ↔ ∀ i, x.testBit i = true → y.testBit i = true := by
  constructor
  · intro h i hx
    have := congrArg (fun z => z.testBit i) h
    simp only [Nat.testBit_and, hx, Bool.true_and] at this
    exact this
  · intro h
    apply Nat.eq_of_testBit_eq
    intro i
    rw [Nat.testBit_and]
    cases hx : x.testBit i
    · simp
    · simp [h i hx]

theorem phy_bits (b w r : Nat) (hr : r ≤ 1) :
    ((((b &&& 31) <<< 7) ||| ((w &&& 63) <<< 1) ||| r) >>> 7) = b &&& 31 := by
  apply Nat.eq_of_testBit_eq
  intro i
  have hw63 : w &&& 63 < 2 ^ 6 := lt_of_le_of_lt Nat.and_le_right (by norm_num)
  rw [Nat.testBit_shiftRight, Nat.testBit_or, Nat.testBit_or,
      Nat.testBit_shiftLeft, Nat.testBit_shiftLeft]
  have h1 : (w &&& 63).testBit (7 + i - 1) = false :=
    testBit_false_of_lt hw63 (by omega)
  have h2 : r.testBit (7 + i) = false :=
    testBit_false_of_lt (show r < 2 ^ 1 by omega) (by omega)
  have h3 : 7 + i - 7 = i := by omega
  rw [h1, h2, h3]
  simp [Nat.le_add_right]

theorem phy_row (b w r : Nat) (hr : r ≤ 1) :
    ((((b &&& 31) <<< 7) ||| ((w &&& 63) <<< 1) ||| r) &&& 127)
      = ((w &&& 63) <<< 1) ||| r := by
  have hw63 : w &&& 63 < 64 := Nat.lt_succ_of_le Nat.and_le_right
  have hshift : (w &&& 63) <<< 1 = (w &&& 63) * 2 := by
    rw [Nat.shiftLeft_eq]
  have hlow : ((w &&& 63) <<< 1) ||| r < 2 ^ 7 := by
    have h2 : (2 : Nat) ^ 7 = 128 := by norm_num
    apply Nat.or_lt_two_pow
    · rw [hshift, h2]; omega
    · rw [h2]; omega
  apply Nat.eq_of_testBit_eq
  intro i
  have h127 : (127 : Nat) = 2 ^ 7 - 1 := by norm_num
  rw [h127, Nat.testBit_and, Nat.testBit_two_pow_sub_one]
  rcases Nat.lt_or_ge i 7 with hi | hi
  · have ha : ((b &&& 31) <<< 7).testBit i = false := by
      rw [Nat.testBit_shiftLeft, decide_eq_false (by omega : ¬ 7 ≤ i), Bool.false_and]
    simp only [Nat.testBit_or, ha, decide_eq_true hi, Bool.false_or, Bool.and_true]
  · have hb : (((w &&& 63) <<< 1) ||| r).testBit i = false :=
      testBit_false_of_lt hlow hi
    rw [hb, decide_eq_false (by omega : ¬ i < 7), Bool.and_false]

theorem phy_rowbits (b w r : Nat) (hr : r ≤ 1) :
    (((((b &&& 31) <<< 7) ||| ((w &&& 63) <<< 1) ||| r) >>> 1) &&& 63)
      = w &&& 63 := by
  have hw63 : w &&& 63 < 64 := Nat.lt_succ_of_le Nat.and_le_right
  apply Nat.eq_of_testBit_eq
  intro i
  have h63 : (63 : Nat) = 2 ^ 6 - 1 := by norm_num
  rw [Nat.testBit_and, h63, Nat.testBit_two_pow_sub_one, Nat.testBit_shiftRight,
      Nat.testBit_or, Nat.testBit_or, Nat.testBit_shiftLeft, Nat.testBit_shiftLeft]
  have h2 : r.testBit (1 + i) = false :=
    testBit_false_of_lt (show r < 2 ^ 1 by omega) (by omega)
  rcases Nat.lt_or_ge i 6 with hi | hi
  · have h1 : decide (7 ≤ 1 + i) = false := by simp; omega
    have h4 : 1 + i - 1 = i := by omega
    simp [h1, h2, h4, hi]
  · have h5 : (w &&& 63).testBit i = false := testBit_false_of_lt hw63 hi
    have h6 : decide (i < 6) = false := by simp; omega
    simp [h2, h5, h6]

theorem phy_sel (b w r : Nat) (hr : r ≤ 1) :
    ((((b &&& 31) <<< 7) ||| ((w &&& 63) <<< 1) ||| r) &&& 1) = r := by
  apply Nat.eq_of_testBit_eq
  intro i
  have ht1 : Nat.testBit 1 i = decide (i = 0) := testBit_one_shiftLeft 0 i
  rw [Nat.testBit_and, ht1]
  rcases eq_or_ne i 0 with rfl | hne
  · rw [decide_eq_true rfl, Bool.and_true]
    simp only [Nat.testBit_or, Nat.testBit_shiftLeft]
    norm_num
  · rw [decide_eq_false hne, Bool.and_false]
    exact (testBit_false_of_lt (show r < 2 ^ 1 by omega) (by omega)).symm

def isAdrWrite : EfuseEv → Bool
  | EfuseEv.writeReg o _ => o == 4
  | _ => false

/-- C2: for every (word_addr, bit_addr, row_selector) triple, the value
cvi_efuse_prog_bit writes to the ADDR register equals the pure packing
function ((bit_addr & 0x1F) << 7) | ((word_addr & 0x3F) << 1) | row,
and for a row selector in {0,1} that address decomposes with the bit
position in bits [11:7], the word position in bits [6:1], and the row
selector in bit 0. -/
theorem prog_bit_addr_packing : ∀ (hw : EfuseHw) (w b r : Nat),
    ((cvi_efuse_prog_bit hw w b r).2.filter isAdrWrite
      = [EfuseEv.writeReg 4 (((b &&& 0x1F) <<< 7) ||| ((w &&& 0x3F) <<< 1) ||| r)])
    ∧ (r ≤ 1 →
       ((((b &&& 0x1F) <<< 7) ||| ((w &&& 0x3F) <<< 1) ||| r) >>> 7 = b &&& 0x1F
        ∧ ((((b &&& 0x1F) <<< 7) ||| ((w &&& 0x3F) <<< 1) ||| r) >>> 1) &&& 0x3F
            = w &&& 0x3F
        ∧ (((b &&& 0x1F) <<< 7) ||| ((w &&& 0x3F) <<< 1) ||| r) &&& 1 = r)) := by
  intro hw w b r
  constructor
  · simp [cvi_efuse_prog_bit, isAdrWrite, List.filter]
  · intro hr
    exact ⟨phy_bits b w r hr, phy_rowbits b w r hr, phy_sel b w r hr⟩

theorem prog_bit_addr_packing_check :
    (cvi_efuse_prog_bit hw0 5 7 1).2.filter isAdrWrite
      = [EfuseEv.writeReg 4 (((7 &&& 0x1F) <<< 7) ||| ((5 &&& 0x3F) <<< 1) ||| 1)]
    ∧ ((((7 &&& 0x1F) <<< 7) ||| ((5 &&& 0x3F) <<< 1) ||| 1) >>> 7 = 7 &&& 0x1F
       ∧ ((((7 &&& 0x1F) <<< 7) ||| ((5 &&& 0x3F) <<< 1) ||| 1) >>> 1) &&& 0x3F
           = 5 &&& 0x3F
       ∧ (((7 &&& 0x1F) <<< 7) ||| ((5 &&& 0x3F) <<< 1) ||| 1) &&& 1 = 1) :=
  ⟨(prog_bit_addr_packing hw0 5 7 1).1, (prog_bit_addr_packing hw0 5 7 1).2 (by decide)⟩

/-- C9: the public write entry point cvi_efuse_write unconditionally
returns -1, leaves the hardware state unchanged and performs no register
access at all (empty event trace): the body that would call
cvi_efuse_write_word is compiled out. -/
theorem cvi_efuse_write_always_fails : ∀ (hw : EfuseHw) (addr value : Nat),
    cvi_efuse_write hw addr value = (hw, [], -1) := by
  intro hw addr value
  rfl

theorem ite_eq_zero_or_one (c : Prop) [Decidable c] :
    (if c then (1 : Nat) else 0) = 0 ∨ (if c then (1 : Nat) else 0) = 1 := by
  split
  · exact Or.inr rfl
  · exact Or.inl rfl

theorem write_word_pass_err_cases (hw : EfuseHw) (vir val j : Nat) :
    (write_word_pass hw vir val j).2.2 = 0
      ∨ (write_word_pass hw vir val j).2.2 = 1 :=
  ite_eq_zero_or_one _

/-- C1: cvi_efuse_write_word returns the hardware error -EIO exactly when
the per-word error counter reaches 2, that is when both passes (row
selector 0 and row selector 1) report a failed margin-read verification;
when exactly one of the two passes fails the call still returns 0. -/
theorem write_word_err_iff_both_rows_fail : ∀ (hw : EfuseHw) (vir val : Nat),
    (((cvi_efuse_write_word hw vir val).2.2 = -eioCode)
      ↔ ((write_word_pass hw vir val 0).2.2 = 1
          ∧ (write_word_pass (write_word_pass hw vir val 0).1 vir val 1).2.2 = 1))
    ∧ ((write_word_pass hw vir val 0).2.2
        + (write_word_pass (write_word_pass hw vir val 0).1 vir val 1).2.2 = 1
       → (cvi_efuse_write_word hw vir val).2.2 = 0) := by
  intro hw vir val
  have h0 := write_word_pass_err_cases hw vir val 0
  have h1 := write_word_pass_err_cases (write_word_pass hw vir val 0).1 vir val 1
  have hres : (cvi_efuse_write_word hw vir val).2.2 =
      if (write_word_pass hw vir val 0).2.2
          + (write_word_pass (write_word_pass hw vir val 0).1 vir val 1).2.2 ≥ 2
      then -eioCode else 0 := rfl
  rw [hres]
  constructor
  · constructor
    · intro h
      split at h
      · omega
      · exact absurd h.symm (by norm_num [eioCode])
    · rintro ⟨ha, hb⟩
      rw [ha, hb, if_pos (by norm_num : (1 : Nat) + 1 ≥ 2)]
  · intro hsum
    rw [if_neg (by omega)]

theorem write_word_err_iff_both_rows_fail_check :
    (((cvi_efuse_write_word hw0 1 15).2.2 = -eioCode)
      ↔ ((write_word_pass hw0 1 15 0).2.2 = 1
          ∧ (write_word_pass (write_word_pass hw0 1 15 0).1 1 15 1).2.2 = 1))
    ∧ ((write_word_pass hw0 1 15 0).2.2
        + (write_word_pass (write_word_pass hw0 1 15 0).1 1 15 1).2.2 = 1
       → (cvi_efuse_write_word hw0 1 15).2.2 = 0) :=
  write_word_err_iff_both_rows_fail hw0 1 15

/-- C5 counterexample: the claim asserts that the out-of-range failure
and the misaligned failure of cvi_efuse_read_from_shadow carry distinct
error kinds, but the code returns the identical error code -EFAULT (-14)
in both cases (address 256 is out of range, address 1 is misaligned). -/
theorem read_from_shadow_error_codes_equal :
    (cvi_efuse_read_from_shadow hw0 256).2 = -14
    ∧ (cvi_efuse_read_from_shadow hw0 1).2 = -14
    ∧ (cvi_efuse_read_from_shadow hw0 256).2
        = (cvi_efuse_read_from_shadow hw0 1).2 := by
  decide

/-- C5 (amended): cvi_efuse_read_from_shadow fails with -EFAULT both for
an address at or past EFUSE_SIZE and for a misaligned address (the code
does not distinguish the two kinds), and in both cases it fails before
any clock enable or register access happens: the event trace is empty. -/
theorem read_from_shadow_invalid_addr : ∀ (hw : EfuseHw) (addr : Nat),
    addr ≥ EFUSE_SIZE ∨ addr % 4 ≠ 0 →
    cvi_efuse_read_from_shadow hw addr = ([], -efaultCode) := by
  intro hw addr h
  rcases h with h | h
  · unfold cvi_efuse_read_from_shadow
    rw [if_pos h]
  · rcases Nat.lt_or_ge addr EFUSE_SIZE with hlt | hge
    · unfold cvi_efuse_read_from_shadow
      rw [if_neg (by omega), if_pos h]
    · unfold cvi_efuse_read_from_shadow
      rw [if_pos hge]

theorem read_from_shadow_invalid_addr_check :
    cvi_efuse_read_from_shadow hw0 1 = ([], -efaultCode) :=
  read_from_shadow_invalid_addr hw0 1 (Or.inr (by decide))

theorem aread_val (hw : EfuseHw) (r : Nat) :
    (cvi_efuse_read_from_phy hw r EFUSE_AREAD).2.2 = hw.rows r % 2 ^ 32 := rfl

theorem aread_state (hw : EfuseHw) (r : Nat) :
    (cvi_efuse_read_from_phy hw r EFUSE_AREAD).1 = hw := rfl

theorem mread_val (hw : EfuseHw) (r : Nat) :
    (cvi_efuse_read_from_phy hw r EFUSE_MREAD).2.2
      = (hw.rows r &&& hw.margin r) % 2 ^ 32 := rfl

theorem mread_state (hw : EfuseHw) (r : Nat) :
    (cvi_efuse_read_from_phy hw r EFUSE_MREAD).1 = hw := rfl

theorem shift_and_one (x i : Nat) :
    ((x >>> i) &&& 1 = 1) ↔ x.testBit i = true := by
  rw [Nat.and_one_is_mod, Nat.testBit_to_div_mod, Nat.shiftRight_eq_div_pow]
  constructor
  · intro h; exact decide_eq_true h
  · intro h; exact of_decide_eq_true h

theorem zero_bit_testBit (val row_val i : Nat) (hrow : row_val < 2 ^ 32) :
    (val &&& (row_val ^^^ (2 ^ 32 - 1))).testBit i
      = (val.testBit i && decide (i < 32) && !row_val.testBit i) := by
  rw [Nat.testBit_and, Nat.testBit_xor, Nat.testBit_two_pow_sub_one]
  rcases Nat.lt_or_ge i 32 with hi | hi
  · simp [decide_eq_true hi, Bool.and_assoc]
  · have h1 : row_val.testBit i = false := testBit_false_of_lt hrow hi
    simp [h1, decide_eq_false (by omega : ¬ i < 32)]

theorem prog_loop_trace_mem (vir j zb : Nat) :
    ∀ (l : List Nat) (hw : EfuseHw) (i : Nat),
      (EfuseEv.progBitCall vir i j ∈ (prog_loop vir j zb l hw).2
        ↔ i ∈ l ∧ (zb >>> i) &&& 1 = 1) := by
  intro l
  induction l with
  | nil => intro hw i; simp [prog_loop]
  | cons a as ih =>
    intro hw i
    by_cases h : (zb >>> a) &&& 1 = 1
    · rw [prog_loop, if_pos h]
      simp only [List.mem_append, ih, List.mem_cons]
      have hs : EfuseEv.progBitCall vir i j
          ∈ (cvi_efuse_prog_bit hw vir a j).2 ↔ i = a := by
        simp [cvi_efuse_prog_bit]
      rw [hs]
      constructor
      · rintro (rfl | ⟨hmem, hbit⟩)
        · exact ⟨Or.inl rfl, h⟩
        · exact ⟨Or.inr hmem, hbit⟩
      · rintro ⟨(rfl | hmem), hbit⟩
        · exact Or.inl rfl
        · exact Or.inr ⟨hmem, hbit⟩
    · rw [prog_loop, if_neg h]
      rw [ih hw i, List.mem_cons]
      constructor
      · rintro ⟨hmem, hbit⟩
        exact ⟨Or.inr hmem, hbit⟩
      · rintro ⟨(rfl | hmem), hbit⟩
        · exact absurd hbit h
        · exact ⟨hmem, hbit⟩

/-- C3: each pass of cvi_efuse_write_word first array-reads physical row
(vir << 1) | j — its trace is exactly the array read of that row, then
the programming loop, then the margin read of the same row — and
cvi_efuse_prog_bit is invoked in the pass exactly for the bit positions
that are set in val and clear in the array-read row contents
(zero_bit = val & ~row_val); a bit already 1 in the row is never
programmed. -/
theorem write_word_pass_programs_zero_bits : ∀ (hw : EfuseHw) (vir val j : Nat),
    val < 2 ^ 32 →
    ((write_word_pass hw vir val j).2.1
      = (cvi_efuse_read_from_phy hw ((vir <<< 1) ||| j) EFUSE_AREAD).2.1
        ++ (prog_loop vir j
             (val &&& ((hw.rows ((vir <<< 1) ||| j) % 2 ^ 32) ^^^ (2 ^ 32 - 1)))
             (List.range 32) hw).2
        ++ (cvi_efuse_read_from_phy (write_word_pass_prog hw vir val j)
             ((vir <<< 1) ||| j) EFUSE_MREAD).2.1)
    ∧ ∀ i, (EfuseEv.progBitCall vir i j ∈ (write_word_pass hw vir val j).2.1
        ↔ (val.testBit i = true
           ∧ (hw.rows ((vir <<< 1) ||| j)).testBit i = false)) := by
  intro hw vir val j hval
  have hzb : ∀ t,
      ((val &&& ((hw.rows ((vir <<< 1) ||| j) % 2 ^ 32) ^^^ (2 ^ 32 - 1))).testBit t
            = true
        ↔ (t < 32 ∧ val.testBit t = true
            ∧ (hw.rows ((vir <<< 1) ||| j)).testBit t = false)) := by
    intro t
    rw [zero_bit_testBit _ _ _ (Nat.mod_lt _ (by norm_num)), mask32_testBit]
    rcases Nat.lt_or_ge t 32 with ht | ht
    · simp [decide_eq_true ht, ht]
    · simp [decide_eq_false (by omega : ¬ t < 32)]
      intro h1
      exact absurd h1 (by omega)
  constructor
  · rfl
  · intro i
    have hdecomp : (write_word_pass hw vir val j).2.1
        = (cvi_efuse_read_from_phy hw ((vir <<< 1) ||| j) EFUSE_AREAD).2.1
          ++ (prog_loop vir j
               (val &&& ((hw.rows ((vir <<< 1) ||| j) % 2 ^ 32) ^^^ (2 ^ 32 - 1)))
               (List.range 32) hw).2
          ++ (cvi_efuse_read_from_phy (write_word_pass_prog hw vir val j)
               ((vir <<< 1) ||| j) EFUSE_MREAD).2.1 := rfl
    have hA : EfuseEv.progBitCall vir i j
        ∉ (cvi_efuse_read_from_phy hw ((vir <<< 1) ||| j) EFUSE_AREAD).2.1 := by
      simp [cvi_efuse_read_from_phy, EFUSE_AREAD, EFUSE_MREAD]
    have hM : EfuseEv.progBitCall vir i j
        ∉ (cvi_efuse_read_from_phy (write_word_pass_prog hw vir val j)
            ((vir <<< 1) ||| j) EFUSE_MREAD).2.1 := by
      simp [cvi_efuse_read_from_phy, EFUSE_AREAD, EFUSE_MREAD]
    rw [hdecomp, List.mem_append, List.mem_append]
    constructor
    · rintro ((hmem | hmem) | hmem)
      · exact absurd hmem hA
      · have hm := (prog_loop_trace_mem vir j _ (List.range 32) hw i).mp hmem
        have hz := (hzb i).mp ((shift_and_one _ i).mp hm.2)
        exact ⟨hz.2.1, hz.2.2⟩
      · exact absurd hmem hM
    · rintro ⟨hv, hr⟩
      have hi32 : i < 32 := lt_32_of_testBit hval hv
      refine Or.inl (Or.inr ?_)
      exact (prog_loop_trace_mem vir j _ (List.range 32) hw i).mpr
        ⟨List.mem_range.mpr hi32,
         (shift_and_one _ i).mpr ((hzb i).mpr ⟨hi32, hv, hr⟩)⟩

theorem write_word_pass_programs_zero_bits_check :
    ((write_word_pass hw0 1 5 0).2.1
      = (cvi_efuse_read_from_phy hw0 ((1 <<< 1) ||| 0) EFUSE_AREAD).2.1
        ++ (prog_loop 1 0
             (5 &&& ((hw0.rows ((1 <<< 1) ||| 0) % 2 ^ 32) ^^^ (2 ^ 32 - 1)))
             (List.range 32) hw0).2
        ++ (cvi_efuse_read_from_phy (write_word_pass_prog hw0 1 5 0)
             ((1 <<< 1) ||| 0) EFUSE_MREAD).2.1)
    ∧ ∀ i, (EfuseEv.progBitCall 1 i 0 ∈ (write_word_pass hw0 1 5 0).2.1
        ↔ ((5 : Nat).testBit i = true
           ∧ (hw0.rows ((1 <<< 1) ||| 0)).testBit i = false)) :=
  write_word_pass_programs_zero_bits hw0 1 5 0 (by norm_num)

/-- C4: in each pass of cvi_efuse_write_word the error increment is 1
exactly when the margin read of the same physical row in the
post-programming state satisfies (val & new_value) != val, and it is 0
whenever every bit of val reads back as set, whatever further bits of
new_value are set. -/
theorem write_word_pass_verify : ∀ (hw : EfuseHw) (vir val j : Nat),
    ((write_word_pass hw vir val j).2.2
      = if val &&& (cvi_efuse_read_from_phy (write_word_pass_prog hw vir val j)
            ((vir <<< 1) ||| j) EFUSE_MREAD).2.2 ≠ val then 1 else 0)
    ∧ (val &&& (cvi_efuse_read_from_phy (write_word_pass_prog hw vir val j)
          ((vir <<< 1) ||| j) EFUSE_MREAD).2.2 = val
       → (write_word_pass hw vir val j).2.2 = 0) := by
  intro hw vir val j
  constructor
  · rfl
  · intro h
    have e : (write_word_pass hw vir val j).2.2
        = if val &&& (cvi_efuse_read_from_phy (write_word_pass_prog hw vir val j)
              ((vir <<< 1) ||| j) EFUSE_MREAD).2.2 ≠ val then 1 else 0 := rfl
    rw [e, if_neg (fun hn => hn h)]

theorem write_word_pass_verify_check :
    ((write_word_pass hwAll 1 15 0).2.2
      = if (15 : Nat) &&& (cvi_efuse_read_from_phy (write_word_pass_prog hwAll 1 15 0)
            ((1 <<< 1) ||| 0) EFUSE_MREAD).2.2 ≠ 15 then 1 else 0)
    ∧ ((15 : Nat) &&& (cvi_efuse_read_from_phy (write_word_pass_prog hwAll 1 15 0)
          ((1 <<< 1) ||| 0) EFUSE_MREAD).2.2 = 15
       → (write_word_pass hwAll 1 15 0).2.2 = 0) :=
  write_word_pass_verify hwAll 1 15 0

theorem and_63_eq (v : Nat) (h : v < 64) : v &&& 63 = v := by
  have h63 : (63 : Nat) = 2 ^ 6 - 1 := by norm_num
  rw [h63, Nat.and_pow_two_sub_one_eq_mod]
  exact Nat.mod_eq_of_lt (by norm_num; omega)

theorem and_31_eq (a : Nat) (h : a < 32) : a &&& 31 = a := by
  have h31 : (31 : Nat) = 2 ^ 5 - 1 := by norm_num
  rw [h31, Nat.and_pow_two_sub_one_eq_mod]
  exact Nat.mod_eq_of_lt (by norm_num; omega)

theorem shiftLeft_one_or (x j : Nat) (hj : j ≤ 1) : (x <<< 1) ||| j = 2 * x + j := by
  have h2 : 2 * x + j = 2 ^ 1 * x + j := by ring
  apply Nat.eq_of_testBit_eq
  intro i
  rw [Nat.testBit_or, Nat.testBit_shiftLeft, h2,
      Nat.testBit_mul_pow_two_add x (show j < 2 ^ 1 by omega) i]
  rcases Nat.lt_or_ge i 1 with hi | hi
  · have hz : i = 0 := by omega
    subst hz
    simp
  · rw [if_neg (by omega)]
    have hjb : j.testBit i = false := testBit_false_of_lt (show j < 2 ^ 1 by omega) hi
    rw [hjb, decide_eq_true hi, Bool.true_and, Bool.or_false]

theorem prog_loop_margin (vir j zb : Nat) :
    ∀ (l : List Nat) (hw : EfuseHw),
      ((prog_loop vir j zb l hw).1).margin = hw.margin := by
  intro l
  induction l with
  | nil => intro hw; rfl
  | cons a as ih =>
    intro hw
    rw [prog_loop]
    split
    · exact ih _
    · exact ih hw

theorem prog_loop_shadow (vir j zb : Nat) :
    ∀ (l : List Nat) (hw : EfuseHw),
      ((prog_loop vir j zb l hw).1).shadow = hw.shadow := by
  intro l
  induction l with
  | nil => intro hw; rfl
  | cons a as ih =>
    intro hw
    rw [prog_loop]
    split
    · exact ih _
    · exact ih hw

theorem prog_loop_clkRet (vir j zb : Nat) :
    ∀ (l : List Nat) (hw : EfuseHw),
      ((prog_loop vir j zb l hw).1).clkRet = hw.clkRet := by
  intro l
  induction l with
  | nil => intro hw; rfl
  | cons a as ih =>
    intro hw
    rw [prog_loop]
    split
    · exact ih _
    · exact ih hw

theorem prog_bit_rows (hw : EfuseHw) (vir a j : Nat) (ha : a < 32) (hj : j ≤ 1)
    (ρ t : Nat) :
    (((cvi_efuse_prog_bit hw vir a j).1).rows ρ).testBit t = true
      ↔ ((hw.rows ρ).testBit t = true
         ∨ (ρ = (((vir &&& 63) <<< 1) ||| j) ∧ t = a)) := by
  have hrow := phy_row a vir j hj
  have hbit : ((((a &&& 31) <<< 7) ||| ((vir &&& 63) <<< 1) ||| j) >>> 7) = a := by
    rw [phy_bits a vir j hj]
    exact and_31_eq a ha
  unfold cvi_efuse_prog_bit
  simp only [Function.update_apply, hrow, hbit]
  rcases eq_or_ne ρ (((vir &&& 63) <<< 1) ||| j) with rfl | hne
  · rw [if_pos rfl, Nat.testBit_or, testBit_one_shiftLeft]
    constructor
    · intro h
      rcases Bool.or_eq_true_iff.mp h with h | h
      · exact Or.inl h
      · exact Or.inr ⟨rfl, of_decide_eq_true h⟩
    · rintro (h | ⟨-, rfl⟩)
      · rw [h, Bool.true_or]
      · rw [decide_eq_true rfl, Bool.or_true]
  · rw [if_neg hne]
    constructor
    · exact Or.inl
    · rintro (h | ⟨h, -⟩)
      · exact h
      · exact absurd h hne

theorem prog_loop_rows (vir j zb : Nat) (hj : j ≤ 1) :
    ∀ (l : List Nat), (∀ x ∈ l, x < 32) → ∀ (hw : EfuseHw) (ρ t : Nat),
      ((((prog_loop vir j zb l hw).1).rows ρ).testBit t = true
        ↔ ((hw.rows ρ).testBit t = true
           ∨ (ρ = (((vir &&& 63) <<< 1) ||| j) ∧ t ∈ l
              ∧ (zb >>> t) &&& 1 = 1))) := by
  intro l
  induction l with
  | nil =>
    intro _ hw ρ t
    simp [prog_loop]
  | cons a as ih =>
    intro hl hw ρ t
    have ha : a < 32 := hl a (List.mem_cons_self a as)
    have has : ∀ x ∈ as, x < 32 := fun x hx => hl x (List.mem_cons_of_mem a hx)
    by_cases h : (zb >>> a) &&& 1 = 1
    · rw [prog_loop, if_pos h]
      rw [ih has _ ρ t, prog_bit_rows hw vir a j ha hj ρ t]
      constructor
      · rintro ((hb | ⟨hρ, rfl⟩) | ⟨hρ, hmem, hbit⟩)
        · exact Or.inl hb
        · exact Or.inr ⟨hρ, List.mem_cons_self _ _, h⟩
        · exact Or.inr ⟨hρ, List.mem_cons_of_mem a hmem, hbit⟩
      · rintro (hb | ⟨hρ, hmem, hbit⟩)
        · exact Or.inl (Or.inl hb)
        · rcases List.mem_cons.mp hmem with rfl | hmem
          · exact Or.inl (Or.inr ⟨hρ, rfl⟩)
          · exact Or.inr ⟨hρ, hmem, hbit⟩
    · rw [prog_loop, if_neg h]
      rw [ih has hw ρ t]
      constructor
      · rintro (hb | ⟨hρ, hmem, hbit⟩)
        · exact Or.inl hb
        · exact Or.inr ⟨hρ, List.mem_cons_of_mem a hmem, hbit⟩
      · rintro (hb | ⟨hρ, hmem, hbit⟩)
        · exact Or.inl hb
        · rcases List.mem_cons.mp hmem with rfl | hmem
          · exact absurd hbit h
          · exact Or.inr ⟨hρ, hmem, hbit⟩

theorem zero_bit_char (val x t : Nat) :
    ((val &&& ((x % 2 ^ 32) ^^^ (2 ^ 32 - 1))).testBit t = true
      ↔ (t < 32 ∧ val.testBit t = true ∧ x.testBit t = false)) := by
  rw [zero_bit_testBit _ _ _ (Nat.mod_lt _ (by norm_num)), mask32_testBit]
  rcases Nat.lt_or_ge t 32 with ht | ht
  · simp [decide_eq_true ht, ht]
  · simp [decide_eq_false (by omega : ¬ t < 32)]
    intro h1
    exact absurd h1 (by omega)

theorem write_word_pass_state (hw : EfuseHw) (vir val j : Nat) :
    (write_word_pass hw vir val j).1 = write_word_pass_prog hw vir val j := rfl

theorem write_word_pass_clkRet (hw : EfuseHw) (vir val j : Nat) :
    ((write_word_pass hw vir val j).1).clkRet = hw.clkRet :=
  prog_loop_clkRet vir j _ (List.range 32) hw

theorem write_word_pass_margin (hw : EfuseHw) (vir val j : Nat) :
    ((write_word_pass hw vir val j).1).margin = hw.margin :=
  prog_loop_margin vir j _ (List.range 32) hw

theorem write_word_pass_rows (hw : EfuseHw) (vir val j : Nat) (hj : j ≤ 1)
    (ρ t : Nat) :
    ((((write_word_pass hw vir val j).1).rows ρ).testBit t = true
      ↔ ((hw.rows ρ).testBit t = true
         ∨ (ρ = (((vir &&& 63) <<< 1) ||| j) ∧ t < 32 ∧ val.testBit t = true
            ∧ (hw.rows ((vir <<< 1) ||| j)).testBit t = false))) := by
  have e : (write_word_pass hw vir val j).1
      = (prog_loop vir j
          (val &&& ((hw.rows ((vir <<< 1) ||| j) % 2 ^ 32) ^^^ (2 ^ 32 - 1)))
          (List.range 32) hw).1 := rfl
  rw [e, prog_loop_rows vir j _ hj (List.range 32)
      (fun x hx => List.mem_range.mp hx) hw ρ t]
  constructor
  · rintro (hb | ⟨hρ, hmem, hbit⟩)
    · exact Or.inl hb
    · have hz := (zero_bit_char val _ t).mp ((shift_and_one _ t).mp hbit)
      exact Or.inr ⟨hρ, hz.1, hz.2.1, hz.2.2⟩
  · rintro (hb | ⟨hρ, ht32, hv, hr⟩)
    · exact Or.inl hb
    · exact Or.inr ⟨hρ, List.mem_range.mpr ht32,
        (shift_and_one _ t).mpr ((zero_bit_char val _ t).mpr ⟨ht32, hv, hr⟩)⟩

theorem write_word_state_rows (hw : EfuseHw) (vir val : Nat) :
    ((cvi_efuse_write_word hw vir val).1).rows
      = ((write_word_pass (write_word_pass hw vir val 0).1 vir val 1).1).rows := rfl

theorem write_word_state_shadow (hw : EfuseHw) (vir val w : Nat) :
    ((cvi_efuse_write_word hw vir val).1).shadow w
      = ((write_word_pass (write_word_pass hw vir val 0).1 vir val 1).1).rows (2 * w)
        ||| ((write_word_pass (write_word_pass hw vir val 0).1 vir val 1).1).rows
              (2 * w + 1) := rfl

theorem write_word_clkRet (hw : EfuseHw) (vir val : Nat) :
    ((cvi_efuse_write_word hw vir val).1).clkRet = hw.clkRet := by
  calc ((cvi_efuse_write_word hw vir val).1).clkRet
      = ((write_word_pass (write_word_pass hw vir val 0).1 vir val 1).1).clkRet := rfl
    _ = ((write_word_pass hw vir val 0).1).clkRet :=
        write_word_pass_clkRet (write_word_pass hw vir val 0).1 vir val 1
    _ = hw.clkRet := write_word_pass_clkRet hw vir val 0

theorem write_word_rows (hw : EfuseHw) (vir val : Nat) (hvir : vir < 64)
    (ρ t : Nat) :
    ((((cvi_efuse_write_word hw vir val).1).rows ρ).testBit t = true
      ↔ ((hw.rows ρ).testBit t = true
         ∨ ((ρ = 2 * vir ∨ ρ = 2 * vir + 1) ∧ t < 32
            ∧ val.testBit t = true))) := by
  have hv63 : vir &&& 63 = vir := and_63_eq vir hvir
  have hr0 : (vir <<< 1) ||| 0 = 2 * vir := by
    rw [shiftLeft_one_or vir 0 (by omega)]
    omega
  have hr1 : (vir <<< 1) ||| 1 = 2 * vir + 1 := shiftLeft_one_or vir 1 (by omega)
  have h1 := write_word_pass_rows (write_word_pass hw vir val 0).1 vir val 1
      (by omega) ρ t
  have h0 := write_word_pass_rows hw vir val 0 (by omega) ρ t
  have h0b := write_word_pass_rows hw vir val 0 (by omega) (2 * vir + 1) t
  rw [hv63, hr1] at h1
  rw [hv63, hr0] at h0 h0b
  have h0b' : (((write_word_pass hw vir val 0).1).rows (2 * vir + 1)).testBit t
        = true
      ↔ (hw.rows (2 * vir + 1)).testBit t = true := by
    rw [h0b]
    constructor
    · rintro (h | ⟨hρ, -⟩)
      · exact h
      · omega
    · exact Or.inl
  have hfalse := not_iff_not.mpr h0b'
  rw [Bool.not_eq_true, Bool.not_eq_true] at hfalse
  have erows : ((cvi_efuse_write_word hw vir val).1).rows ρ
      = ((write_word_pass (write_word_pass hw vir val 0).1 vir val 1).1).rows ρ :=
    rfl
  rw [erows, h1, h0, hfalse]
  constructor
  · rintro ((h | ⟨hρ, h32, hv, -⟩) | ⟨hρ, h32, hv, -⟩)
    · exact Or.inl h
    · exact Or.inr ⟨Or.inl hρ, h32, hv⟩
    · exact Or.inr ⟨Or.inr hρ, h32, hv⟩
  · rintro (h | ⟨hρ | hρ, h32, hv⟩)
    · exact Or.inl (Or.inl h)
    · subst hρ
      by_cases hb : (hw.rows (2 * vir)).testBit t = true
      · exact Or.inl (Or.inl hb)
      · exact Or.inl (Or.inr ⟨rfl, h32, hv, Bool.eq_false_iff.mpr hb⟩)
    · subst hρ
      by_cases hb : (hw.rows (2 * vir + 1)).testBit t = true
      · exact Or.inl (Or.inl hb)
      · exact Or.inr ⟨rfl, h32, hv, Bool.eq_false_iff.mpr hb⟩

/-- C6: for every 4-byte-aligned addr below 256 and 32-bit value, if
cvi_efuse_write_word(addr / 4, val) returns success (its final step is
the refresh command that resyncs the shadow window), then a subsequent
cvi_efuse_read_from_shadow(addr) returns a nonnegative value r with
r AND val = val: every bit set in val reads back as set. -/
theorem write_then_read_shadow_superset : ∀ (hw : EfuseHw) (addr val : Nat),
    hw.clkRet = 0 → addr % 4 = 0 → addr < 256 → val < 2 ^ 32 →
    (cvi_efuse_write_word hw (addr / 4) val).2.2 = 0 →
    ∃ r : Nat,
      (cvi_efuse_read_from_shadow (cvi_efuse_write_word hw (addr / 4) val).1
          addr).2 = Int.ofNat r
      ∧ r &&& val = val := by
  intro hw addr val hclk halign hlt hval hok
  set vir := addr / 4 with hvir_def
  have hvir : vir < 64 := by omega
  set hwF := (cvi_efuse_write_word hw vir val).1 with hhwF
  have hclkF : hwF.clkRet = 0 := by rw [hhwF, write_word_clkRet]; exact hclk
  have hread : (cvi_efuse_read_from_shadow hwF addr).2
      = Int.ofNat (hwF.shadow vir % 2 ^ 32) := by
    have hsz : ¬ addr ≥ EFUSE_SIZE := by unfold EFUSE_SIZE; omega
    unfold cvi_efuse_read_from_shadow
    rw [if_neg hsz, if_neg (not_not_intro halign), if_neg (not_not_intro hclkF)]
  refine ⟨hwF.shadow vir % 2 ^ 32, hread, ?_⟩
  rw [Nat.and_comm, land_eq_left_iff]
  intro i hvi
  have hi32 : i < 32 := lt_32_of_testBit hval hvi
  rw [mask32_testBit, decide_eq_true hi32, Bool.true_and]
  have hsh : hwF.shadow vir = hwF.rows (2 * vir) ||| hwF.rows (2 * vir + 1) := rfl
  rw [hsh, Nat.testBit_or]
  have hr0 : (vir <<< 1) ||| 0 = 2 * vir := by
    rw [shiftLeft_one_or vir 0 (by omega)]
    omega
  have hr1 : (vir <<< 1) ||| 1 = 2 * vir + 1 := shiftLeft_one_or vir 1 (by omega)
  have hc0 := write_word_pass_err_cases hw vir val 0
  have hc1 := write_word_pass_err_cases (write_word_pass hw vir val 0).1 vir val 1
  have hsum : ¬((write_word_pass hw vir val 0).2.2
      + (write_word_pass (write_word_pass hw vir val 0).1 vir val 1).2.2 ≥ 2) := by
    intro hge
    have e : (cvi_efuse_write_word hw vir val).2.2
        = if (write_word_pass hw vir val 0).2.2
            + (write_word_pass (write_word_pass hw vir val 0).1 vir val 1).2.2 ≥ 2
          then -eioCode else 0 := rfl
    rw [e, if_pos hge] at hok
    exact absurd hok.symm (by norm_num [eioCode])
  rcases (by omega : (write_word_pass hw vir val 0).2.2 = 0
      ∨ (write_word_pass (write_word_pass hw vir val 0).1 vir val 1).2.2 = 0)
    with he | he
  · have hm : val &&& (cvi_efuse_read_from_phy (write_word_pass_prog hw vir val 0)
        ((vir <<< 1) ||| 0) EFUSE_MREAD).2.2 = val := by
      by_contra hn
      have e : (write_word_pass hw vir val 0).2.2
          = if val &&& (cvi_efuse_read_from_phy (write_word_pass_prog hw vir val 0)
              ((vir <<< 1) ||| 0) EFUSE_MREAD).2.2 ≠ val then 1 else 0 := rfl
      rw [e, if_pos hn] at he
      exact absurd he (by norm_num)
    have hmb := (land_eq_left_iff _ _).mp hm i hvi
    rw [mread_val, mask32_testBit, Nat.testBit_and] at hmb
    have hS0 : ((write_word_pass_prog hw vir val 0).rows
        ((vir <<< 1) ||| 0)).testBit i = true :=
      ((Bool.and_eq_true _ _).mp
        ((Bool.and_eq_true _ _).mp hmb).2).1
    have hS0' : (((write_word_pass hw vir val 0).1).rows (2 * vir)).testBit i
        = true := by
      rw [write_word_pass_state, ← hr0]
      exact hS0
    have hP1 := (write_word_pass_rows (write_word_pass hw vir val 0).1 vir val 1
        (by omega) (2 * vir) i).mpr (Or.inl hS0')
    have eF : hwF.rows (2 * vir)
        = ((write_word_pass (write_word_pass hw vir val 0).1 vir val 1).1).rows
            (2 * vir) := rfl
    rw [eF, hP1, Bool.true_or]
  · have hm : val &&& (cvi_efuse_read_from_phy
        (write_word_pass_prog (write_word_pass hw vir val 0).1 vir val 1)
        ((vir <<< 1) ||| 1) EFUSE_MREAD).2.2 = val := by
      by_contra hn
      have e : (write_word_pass (write_word_pass hw vir val 0).1 vir val 1).2.2
          = if val &&& (cvi_efuse_read_from_phy
              (write_word_pass_prog (write_word_pass hw vir val 0).1 vir val 1)
              ((vir <<< 1) ||| 1) EFUSE_MREAD).2.2 ≠ val then 1 else 0 := rfl
      rw [e, if_pos hn] at he
      exact absurd he (by norm_num)
    have hmb := (land_eq_left_iff _ _).mp hm i hvi
    rw [mread_val, mask32_testBit, Nat.testBit_and] at hmb
    have hS1 : ((write_word_pass_prog (write_word_pass hw vir val 0).1 vir val
        1).rows ((vir <<< 1) ||| 1)).testBit i = true :=
      ((Bool.and_eq_true _ _).mp
        ((Bool.and_eq_true _ _).mp hmb).2).1
    have eF : hwF.rows (2 * vir + 1)
        = ((write_word_pass_prog (write_word_pass hw vir val 0).1 vir val 1).rows
            (2 * vir + 1)) := rfl
    rw [eF, ← hr1, hS1, Bool.or_true]

theorem write_then_read_shadow_superset_check :
    ∃ r : Nat,
      (cvi_efuse_read_from_shadow (cvi_efuse_write_word hwAll (4 / 4) 15).1 4).2
        = Int.ofNat r
      ∧ r &&& 15 = 15 :=
  write_then_read_shadow_superset hwAll 4 15 (by decide) (by decide) (by decide)
    (by decide) (by decide)

theorem prog_loop_zero (vir j : Nat) :
    ∀ (l : List Nat) (hw : EfuseHw), prog_loop vir j 0 l hw = (hw, []) := by
  intro l
  induction l with
  | nil => intro hw; rfl
  | cons a as ih =>
    intro hw
    rw [prog_loop, if_neg]
    · exact ih hw
    · rw [Nat.zero_shiftRight]
      decide

theorem zero_bit_after_write (hw : EfuseHw) (vir val : Nat) (hvir : vir < 64)
    (j : Nat) (hj : j ≤ 1) :
    val &&& ((((cvi_efuse_write_word hw vir val).1).rows ((vir <<< 1) ||| j)
      % 2 ^ 32) ^^^ (2 ^ 32 - 1)) = 0 := by
  have hrr : (vir <<< 1) ||| j = 2 * vir + j := shiftLeft_one_or vir j hj
  apply Nat.eq_of_testBit_eq
  intro t
  rw [Nat.zero_testBit]
  cases hzb : (val &&& ((((cvi_efuse_write_word hw vir val).1).rows
      ((vir <<< 1) ||| j) % 2 ^ 32) ^^^ (2 ^ 32 - 1))).testBit t
  · rfl
  · exfalso
    have h := (zero_bit_char val _ t).mp hzb
    have hrow := (write_word_rows hw vir val hvir (2 * vir + j) t).mpr
      (Or.inr ⟨by omega, h.1, h.2.1⟩)
    rw [← hrr] at hrow
    rw [h.2.2] at hrow
    exact Bool.false_ne_true hrow

theorem write_word_pass_state_of_blank (hw : EfuseHw) (vir val j : Nat)
    (h : val &&& ((hw.rows ((vir <<< 1) ||| j) % 2 ^ 32) ^^^ (2 ^ 32 - 1)) = 0) :
    (write_word_pass hw vir val j).1 = hw := by
  have e : (write_word_pass hw vir val j).1
      = (prog_loop vir j
          (val &&& ((hw.rows ((vir <<< 1) ||| j) % 2 ^ 32) ^^^ (2 ^ 32 - 1)))
          (List.range 32) hw).1 := rfl
  rw [e, h, prog_loop_zero]

theorem write_word_pass_no_prog_of_blank (hw : EfuseHw) (vir val j : Nat)
    (h : val &&& ((hw.rows ((vir <<< 1) ||| j) % 2 ^ 32) ^^^ (2 ^ 32 - 1)) = 0)
    (w b r : Nat) :
    EfuseEv.progBitCall w b r ∉ (write_word_pass hw vir val j).2.1 := by
  have e : (write_word_pass hw vir val j).2.1
      = (cvi_efuse_read_from_phy hw ((vir <<< 1) ||| j) EFUSE_AREAD).2.1
        ++ (prog_loop vir j
             (val &&& ((hw.rows ((vir <<< 1) ||| j) % 2 ^ 32) ^^^ (2 ^ 32 - 1)))
             (List.range 32) hw).2
        ++ (cvi_efuse_read_from_phy (write_word_pass_prog hw vir val j)
             ((vir <<< 1) ||| j) EFUSE_MREAD).2.1 := rfl
  rw [e, h, prog_loop_zero]
  simp [cvi_efuse_read_from_phy, EFUSE_AREAD, EFUSE_MREAD]

/-- C7: calling cvi_efuse_write_word twice in a row with the same word
address and value leaves the hardware (fuse rows and shadow window, and
hence whatever is subsequently readable) in exactly the state the first
call produced, and the second call performs no cvi_efuse_prog_bit
invocation at all: its zero-bit computation skips every already-set bit. -/
theorem write_word_idempotent : ∀ (hw : EfuseHw) (vir val : Nat),
    vir < 64 → val < 2 ^ 32 →
    ((cvi_efuse_write_word (cvi_efuse_write_word hw vir val).1 vir val).1
        = (cvi_efuse_write_word hw vir val).1)
    ∧ ∀ w b r, EfuseEv.progBitCall w b r
        ∉ (cvi_efuse_write_word (cvi_efuse_write_word hw vir val).1 vir val).2.1 := by
  intro hw vir val hvir hval
  set hw1 := (cvi_efuse_write_word hw vir val).1 with hhw1
  have hz0 : val &&& ((hw1.rows ((vir <<< 1) ||| 0) % 2 ^ 32) ^^^ (2 ^ 32 - 1))
      = 0 := zero_bit_after_write hw vir val hvir 0 (by omega)
  have hz1 : val &&& ((hw1.rows ((vir <<< 1) ||| 1) % 2 ^ 32) ^^^ (2 ^ 32 - 1))
      = 0 := zero_bit_after_write hw vir val hvir 1 (by omega)
  have hp0 : (write_word_pass hw1 vir val 0).1 = hw1 :=
    write_word_pass_state_of_blank hw1 vir val 0 hz0
  have hp1 : (write_word_pass (write_word_pass hw1 vir val 0).1 vir val 1).1
      = hw1 := by
    rw [hp0]
    exact write_word_pass_state_of_blank hw1 vir val 1 hz1
  constructor
  · have e : (cvi_efuse_write_word hw1 vir val).1
        = { (write_word_pass (write_word_pass hw1 vir val 0).1 vir val 1).1 with
            shadow := fun w =>
              ((write_word_pass (write_word_pass hw1 vir val 0).1 vir val 1).1).rows
                  (2 * w)
                ||| ((write_word_pass (write_word_pass hw1 vir val 0).1 vir val
                      1).1).rows (2 * w + 1) } := rfl
    rw [e, hp1]
    have hsh : hw1.shadow = fun w => hw1.rows (2 * w) ||| hw1.rows (2 * w + 1) :=
      rfl
    rw [← hsh]
  · intro w b r
    have etr : (cvi_efuse_write_word hw1 vir val).2.1
        = (write_word_pass hw1 vir val 0).2.1
          ++ (write_word_pass (write_word_pass hw1 vir val 0).1 vir val 1).2.1
          ++ [EfuseEv.writeReg 0 EFUSE_CMD_REFRESH] := rfl
    rw [etr, hp0]
    intro hmem
    rcases List.mem_append.mp hmem with hmem | hmem
    · rcases List.mem_append.mp hmem with hmem | hmem
      · exact write_word_pass_no_prog_of_blank hw1 vir val 0 hz0 w b r hmem
      · exact write_word_pass_no_prog_of_blank hw1 vir val 1 hz1 w b r hmem
    · simp at hmem

theorem write_word_idempotent_check :
    ((cvi_efuse_write_word (cvi_efuse_write_word hwAll 1 15).1 1 15).1
        = (cvi_efuse_write_word hwAll 1 15).1)
    ∧ ∀ w b r, EfuseEv.progBitCall w b r
        ∉ (cvi_efuse_write_word (cvi_efuse_write_word hwAll 1 15).1 1 15).2.1 :=
  write_word_idempotent hwAll 1 15 (by decide) (by decide)

theorem read_from_shadow_ok (hw : EfuseHw) (a : Nat) (hclk : hw.clkRet = 0)
    (ha : a % 4 = 0) (hlt : a < 256) :
    (cvi_efuse_read_from_shadow hw a).2
      = Int.ofNat (hw.shadow (a / 4) % 2 ^ 32) := by
  have hsz : ¬ a ≥ EFUSE_SIZE := by unfold EFUSE_SIZE; omega
  unfold cvi_efuse_read_from_shadow
  rw [if_neg hsz, if_neg (not_not_intro ha), if_neg (not_not_intro hclk)]

theorem byteOf_zero (k : Nat) : byteOf 0 k = 0 := by
  unfold byteOf
  rw [Nat.zero_shiftRight]
  rfl

theorem read_buf_loop_ok (hw : EfuseHw) (addr : Nat) (hclk : hw.clkRet = 0)
    (ha : addr % 4 = 0) :
    ∀ (k i : Nat) (buf : Nat → Nat), i % 4 = 0 → addr + i + 4 * k ≤ 256 →
      ((read_buf_loop hw addr k i buf).2 = none
       ∧ (∀ b, (b < i ∨ i + 4 * k ≤ b) →
           (read_buf_loop hw addr k i buf).1 b = buf b)
       ∧ (∀ b, i ≤ b → b < i + 4 * k → buf b = 0 →
           (read_buf_loop hw addr k i buf).1 b
             = byteOf (hw.shadow ((addr + 4 * (b / 4)) / 4) % 2 ^ 32) (b % 4))) := by
  intro k
  induction k with
  | zero =>
    intro i buf hi hle
    refine ⟨rfl, fun b _ => rfl, fun b hb1 hb2 _ => ?_⟩
    omega
  | succ k ih =>
    intro i buf hi hle
    have hread : (cvi_efuse_read_from_shadow hw (addr + i)).2
        = Int.ofNat (hw.shadow ((addr + i) / 4) % 2 ^ 32) :=
      read_from_shadow_ok hw (addr + i) hclk (by omega) (by omega)
    have estep : read_buf_loop hw addr (k + 1) i buf
        = read_buf_loop hw addr k (i + 4)
            (if (cvi_efuse_read_from_shadow hw (addr + i)).2 > 0
             then memcpy4 buf i ((cvi_efuse_read_from_shadow hw (addr + i)).2).toNat
             else buf) := by
      simp only [read_buf_loop]
      rw [if_neg (by rw [hread]; exact Int.not_lt.mpr (Int.ofNat_nonneg _))]
    set v := hw.shadow ((addr + i) / 4) % 2 ^ 32 with hv
    set buf1 : Nat → Nat :=
      if (cvi_efuse_read_from_shadow hw (addr + i)).2 > 0
      then memcpy4 buf i ((cvi_efuse_read_from_shadow hw (addr + i)).2).toNat
      else buf with hbuf1
    have hbuf1out : ∀ b, (b < i ∨ i + 4 ≤ b) → buf1 b = buf b := by
      intro b hb
      rw [hbuf1]
      by_cases hpos : (cvi_efuse_read_from_shadow hw (addr + i)).2 > 0
      · rw [if_pos hpos]
        unfold memcpy4
        rw [if_neg (by omega)]
      · rw [if_neg hpos]
    have hbuf1in : ∀ b, i ≤ b → b < i + 4 → buf b = 0 → buf1 b = byteOf v (b - i) := by
      intro b hb1 hb2 hb0
      rw [hbuf1]
      by_cases hpos : (cvi_efuse_read_from_shadow hw (addr + i)).2 > 0
      · have etn : ((Int.ofNat v).toNat) = v := rfl
        rw [if_pos hpos, hread, etn]
        unfold memcpy4
        rw [if_pos ⟨hb1, hb2⟩]
      · rw [if_neg hpos]
        have hv0 : v = 0 := by
          rw [hread] at hpos
          have h1 : Int.ofNat v ≤ 0 := Int.not_lt.mp hpos
          have h2 : (0 : Int) ≤ Int.ofNat v := Int.ofNat_nonneg _
          exact Int.ofNat_eq_zero.mp (le_antisymm h1 h2)
        rw [hb0, hv0, byteOf_zero]
    have hih := ih (i + 4) buf1 (by omega) (by omega)
    rw [estep]
    refine ⟨hih.1, ?_, ?_⟩
    · intro b hb
      rw [hih.2.1 b (by omega)]
      exact hbuf1out b (by omega)
    · intro b hb1 hb2 hb0
      rcases Nat.lt_or_ge b (i + 4) with hcase | hcase
      · rw [hih.2.1 b (Or.inl hcase)]
        rw [hbuf1in b hb1 hcase hb0]
        have e1 : addr + 4 * (b / 4) = addr + i := by omega
        have e2 : b - i = b % 4 := by omega
        rw [e1, e2]
      · rw [hih.2.2 b hcase (by omega) (by rw [hbuf1out b (Or.inr hcase)]; exact hb0)]

theorem read_buf_loop_oor (hw : EfuseHw) (addr : Nat) (hclk : hw.clkRet = 0)
    (ha : addr % 4 = 0) :
    ∀ (k : Nat), 1 ≤ k → ∀ (i : Nat) (buf : Nat → Nat), i % 4 = 0 →
      256 ≤ addr + i + 4 * (k - 1) →
      (read_buf_loop hw addr k i buf).2 = some (-efaultCode) := by
  intro k
  induction k with
  | zero => intro h; exact absurd h (by omega)
  | succ k ih =>
    intro _ i buf hi hge
    rcases Nat.lt_or_ge (addr + i) 256 with hlt | hoor
    · have hread : (cvi_efuse_read_from_shadow hw (addr + i)).2
          = Int.ofNat (hw.shadow ((addr + i) / 4) % 2 ^ 32) :=
        read_from_shadow_ok hw (addr + i) hclk (by omega) hlt
      have hk : 1 ≤ k := by
        rcases Nat.eq_zero_or_pos k with rfl | h
        · omega
        · exact h
      have estep : read_buf_loop hw addr (k + 1) i buf
          = read_buf_loop hw addr k (i + 4)
              (if (cvi_efuse_read_from_shadow hw (addr + i)).2 > 0
               then memcpy4 buf i
                 ((cvi_efuse_read_from_shadow hw (addr + i)).2).toNat
               else buf) := by
        simp only [read_buf_loop]
        rw [if_neg (by rw [hread]; exact Int.not_lt.mpr (Int.ofNat_nonneg _))]
      rw [estep]
      exact ih hk (i + 4) _ (by omega) (by omega)
    · have hfail : (cvi_efuse_read_from_shadow hw (addr + i)).2 = -efaultCode := by
        unfold cvi_efuse_read_from_shadow
        rw [if_pos (by unfold EFUSE_SIZE; omega)]
      have hneg : (cvi_efuse_read_from_shadow hw (addr + i)).2 < 0 := by
        rw [hfail]
        norm_num [efaultCode]
      simp only [read_buf_loop]
      rw [if_pos hneg, hfail]

theorem read_buf_not_null (hw : EfuseHw) (addr : Nat) (buf : Nat → Nat)
    (buf_size : Nat) :
    cvi_efuse_read_buf hw addr false buf buf_size
      = (match (read_buf_loop hw addr
          (((if buf_size > EFUSE_SIZE then EFUSE_SIZE else buf_size) + 3) / 4) 0
          (memset0 buf (if buf_size > EFUSE_SIZE then EFUSE_SIZE
            else buf_size))).2 with
        | some er => ((read_buf_loop hw addr
            (((if buf_size > EFUSE_SIZE then EFUSE_SIZE else buf_size) + 3) / 4) 0
            (memset0 buf (if buf_size > EFUSE_SIZE then EFUSE_SIZE
              else buf_size))).1, er)
        | none => ((read_buf_loop hw addr
            (((if buf_size > EFUSE_SIZE then EFUSE_SIZE else buf_size) + 3) / 4) 0
            (memset0 buf (if buf_size > EFUSE_SIZE then EFUSE_SIZE
              else buf_size))).1,
           Int.ofNat (if buf_size > EFUSE_SIZE then EFUSE_SIZE
             else buf_size))) := rfl

/-- C8: with a non-null buffer, cvi_efuse_read_buf clamps the requested
size to the 256-byte bound, and on the success path (every stride read in
range) returns the clamped size; every byte below the clamped size holds
the corresponding little-endian byte of the shadow word read at its
4-byte stride (bytes whose shadow word is zero stay at the zero fill). -/
theorem read_buf_clamps_and_fills : ∀ (hw : EfuseHw) (addr size : Nat)
    (buf : Nat → Nat),
    hw.clkRet = 0 → addr % 4 = 0 →
    addr + 4 * ((min size 256 + 3) / 4) ≤ 256 →
    ((cvi_efuse_read_buf hw addr false buf size).2 = Int.ofNat (min size 256)
     ∧ ∀ b, b < min size 256 →
         (cvi_efuse_read_buf hw addr false buf size).1 b
           = byteOf (hw.shadow ((addr + 4 * (b / 4)) / 4) % 2 ^ 32) (b % 4)) := by
  intro hw addr size buf hclk ha hle
  have hbs : (if size > EFUSE_SIZE then EFUSE_SIZE else size) = min size 256 := by
    unfold EFUSE_SIZE
    split
    · omega
    · omega
  have hloop := read_buf_loop_ok hw addr hclk ha ((min size 256 + 3) / 4) 0
      (memset0 buf (min size 256)) (by omega) (by omega)
  constructor
  · rw [read_buf_not_null, hbs, hloop.1]
  · intro b hb
    rw [read_buf_not_null, hbs, hloop.1]
    have hmem : memset0 buf (min size 256) b = 0 := by
      unfold memset0
      rw [if_pos hb]
    exact hloop.2.2 b (by omega) (by omega) hmem

theorem read_buf_clamps_and_fills_check :
    ((cvi_efuse_read_buf hw0 0 false (fun _ => 0) 1000).2
        = Int.ofNat (min 1000 256)
     ∧ ∀ b, b < min 1000 256 →
         (cvi_efuse_read_buf hw0 0 false (fun _ => 0) 1000).1 b
           = byteOf (hw0.shadow ((0 + 4 * (b / 4)) / 4) % 2 ^ 32) (b % 4)) :=
  read_buf_clamps_and_fills hw0 0 1000 (fun _ => 0) (by decide) (by decide)
    (by decide)

/-- C10 counterexample: at addr = 260 with requested size 0 the clamped
size is 0, the stride loop never runs, and cvi_efuse_read_buf returns 0
(success, zero bytes, not a negative error code) although addr is
nonzero, 4-byte aligned and addr plus the clamped size exceeds 256; the
claim as stated predicts an error return for every such pair. -/
theorem read_buf_oor_zero_size_returns_zero :
    (260 % 4 = 0 ∧ 0 < 260 ∧ 256 < 260 + min 0 256)
    ∧ (cvi_efuse_read_buf hw0 260 false (fun _ => 0) 0).2 = 0 := by
  decide

/-- C10 (amended): for every nonzero 4-byte-aligned addr and every
nonzero requested size with addr plus the clamped size exceeding 256
(so the stride loop runs and reaches an out-of-range shadow address),
cvi_efuse_read_buf returns the error -EFAULT rather than a truncated
byte count. -/
theorem read_buf_overflow_errors : ∀ (hw : EfuseHw) (addr size : Nat)
    (buf : Nat → Nat),
    hw.clkRet = 0 → addr % 4 = 0 → 0 < addr → 0 < size →
    256 < addr + min size 256 →
    (cvi_efuse_read_buf hw addr false buf size).2 = -efaultCode := by
  intro hw addr size buf hclk ha haddr hsize hover
  have hbs : (if size > EFUSE_SIZE then EFUSE_SIZE else size) = min size 256 := by
    unfold EFUSE_SIZE
    split
    · omega
    · omega
  have hk : 1 ≤ (min size 256 + 3) / 4 := by omega
  have hge : 256 ≤ addr + 0 + 4 * ((min size 256 + 3) / 4 - 1) := by omega
  have hloop := read_buf_loop_oor hw addr hclk ha ((min size 256 + 3) / 4) hk 0
      (memset0 buf (min size 256)) (by omega) hge
  rw [read_buf_not_null, hbs, hloop]

theorem read_buf_overflow_errors_check :
    (cvi_efuse_read_buf hw0 4 false (fun _ => 0) 256).2 = -efaultCode :=
  read_buf_overflow_errors hw0 4 256 (fun _ => 0) (by decide) (by decide)
    (by decide) (by decide) (by decide)
